import Mathlib

/-!
Verification of the path utilities in `crates/util/src/paths.rs`
(`PathWithPosition::parse_str` and `to_string`, `PathMatcher`,
`compare_paths_with_strategy` and `natural_sort`).

Strings are modelled as `List Char`; paths on the Unix platform, so the
path separator is `/` and `Path` equality is string equality.  Byte
lengths and byte slicing in the source coincide with character counts on
ASCII input; the universally quantified theorems about `parse_str` carry
an explicit ASCII hypothesis where this matters.  The `regex` crate
character class `\d` (Unicode decimal digits) is modelled as the ASCII
digits, which agrees with the real matcher on ASCII input.
-/

/-- ASCII characters of Rust `char::is_whitespace` (Unicode `White_Space`
restricted to ASCII), used by `str::trim` in `parse_str`. -/
def isRustWhitespace (c : Char) : Bool :=
  c = ' ' || c = '\t' || c = '\n' || c = '\r' || c = '\x0b' || c = '\x0c'

/-- Rust `str::trim`: remove leading and trailing whitespace. -/
def rustTrim (s : List Char) : List Char :=
  ((s.dropWhile isRustWhitespace).reverse.dropWhile isRustWhitespace).reverse

/-- Split a path string at every `/` (keeping the empty pieces), the first
step of Rust `Path::components`. -/
def splitOnSlash : List Char → List (List Char)
  | [] => [[]]
  | c :: rest =>
    if c = '/' then [] :: splitOnSlash rest
    else
      match splitOnSlash rest with
      | [] => [[c]]
      | s :: ss => (c :: s) :: ss

/-- Rust `Path::components` on Unix, as the component strings
(`component.as_os_str()`): an optional leading `/` (RootDir), a `.` kept
only at the very start (CurDir), then the nonempty pieces other than `.`
(ParentDir `..` and normal names). -/
def pathComponents (p : List Char) : List (List Char) :=
  let root := if p.head? = some '/' then [['/']] else []
  let cur :=
    match p with
    | ['.'] => [['.']]
    | '.' :: '/' :: _ => [['.']]
    | _ => []
  root ++ cur ++ (splitOnSlash p).filter (fun c => !c.isEmpty && c != ['.'])

/-- Rust `Path::file_name().unwrap_or_default()`: the last component when
it is a normal name, otherwise the empty string. -/
def fileNameOf (p : List Char) : List Char :=
  match (pathComponents p).getLast? with
  | none => []
  | some c => if c = ['/'] ∨ c = ['.'] ∨ c = ['.', '.'] then [] else c

/-- The `regex` crate `\d`, restricted to ASCII digits (see module comment). -/
def isRegexDigit (c : Char) : Bool := c.isDigit

/-- Value of a string of ASCII digits. -/
def digitsToNat (s : List Char) : Nat :=
  s.foldl (fun a c => a * 10 + (c.toNat - 48)) 0

/-- Rust `str::parse::<u32>()`: an optional `+`, then one or more ASCII
digits, failing on overflow past `u32::MAX`. -/
def parseU32 (s : List Char) : Option Nat :=
  let t := if s.head? = some '+' then s.tail else s
  if t.isEmpty then none
  else if t.all Char.isDigit then
    if digitsToNat t < 2 ^ 32 then some (digitsToNat t) else none
  else none

/-- The three capture groups of `ROW_COL_CAPTURE_REGEX` that participate
in a match (`caps.extract()` in `parse_str`). -/
structure RegexCaps where
  fileName : List Char
  rowStr : List Char
  colStr : List Char
deriving DecidableEq, Repr

/-- First alternative of `ROW_COL_CAPTURE_REGEX` tried at the current
position: `([^\(]+)(?:\((\d+),(\d+)\)|\((\d+)\)())`.  The greedy
`[^\(]+` run is maximal and the character after it, if any, is `(`, so
no backtracking arises; likewise the `\d+` groups are maximal because
the following `,` and `)` are not digits.  Note this alternative is not
anchored at the end of the string. -/
def alt1 (s : List Char) : Option RegexCaps :=
  let run := s.takeWhile (· != '(')
  let rest := s.dropWhile (· != '(')
  if run.isEmpty then none
  else if rest.head? = some '(' then
    let r := rest.tail
    let d1 := r.takeWhile isRegexDigit
    let r1 := r.dropWhile isRegexDigit
    if d1.isEmpty then none
    else if r1.head? = some ',' then
      let r2 := r1.tail
      let d2 := r2.takeWhile isRegexDigit
      if d2.isEmpty then none
      else if (r2.dropWhile isRegexDigit).head? = some ')' then some ⟨run, d1, d2⟩
      else none
    else if r1.head? = some ')' then some ⟨run, d1, []⟩
    else none
  else none

/-- Branch `\:+(\d+)\:(\d+)\:*$` of the second alternative, applied to
the part after the lazy `.+?`.  All quantifiers are forced: the maximal
colon run must be followed by a digit, the maximal digit runs by `:` or
by colons up to the end. -/
def branchA (r : List Char) : Option (List Char × List Char) :=
  let c1 := r.takeWhile (· == ':')
  let r1 := r.dropWhile (· == ':')
  let d1 := r1.takeWhile isRegexDigit
  let rd := r1.dropWhile isRegexDigit
  if c1.isEmpty then none
  else if d1.isEmpty then none
  else if rd.head? = some ':' then
    let r2 := rd.tail
    let d2 := r2.takeWhile isRegexDigit
    if d2.isEmpty then none
    else if (r2.dropWhile isRegexDigit).all (· == ':') then some (d1, d2)
    else none
  else none

/-- Branch `\:+(\d+)\:*()$` of the second alternative. -/
def branchB (r : List Char) : Option (List Char) :=
  let c1 := r.takeWhile (· == ':')
  let r1 := r.dropWhile (· == ':')
  let d1 := r1.takeWhile isRegexDigit
  if c1.isEmpty then none
  else if d1.isEmpty then none
  else if (r1.dropWhile isRegexDigit).all (· == ':') then some d1
  else none

/-- The three suffix branches `A|B|\:*()()$` of the second alternative,
tried in order at the current end of the lazy `.+?` (whose reversed text
is `pre`). -/
def alt2Branches (pre s : List Char) : Option RegexCaps :=
  match branchA s with
  | some (d1, d2) => some ⟨pre.reverse, d1, d2⟩
  | none =>
    match branchB s with
    | some d1 => some ⟨pre.reverse, d1, []⟩
    | none =>
      if s.all (· == ':') then some ⟨pre.reverse, [], []⟩ else none

/-- Lazy expansion of `.+?` in the second alternative `(.+?)(?:...)`:
try the suffix branches, otherwise consume one more character (`.` does
not match a newline). -/
def alt2Aux : List Char → List Char → Option RegexCaps
  | pre, [] => alt2Branches pre []
  | pre, c :: rest =>
    match alt2Branches pre (c :: rest) with
    | some caps => some caps
    | none => if c = '\n' then none else alt2Aux (c :: pre) rest

/-- Second alternative of the regex: `.+?` must consume at least one
non-newline character. -/
def alt2 : List Char → Option RegexCaps
  | [] => none
  | c :: rest => if c = '\n' then none else alt2Aux [c] rest

/-- `SUFFIX_RE.captures`: leftmost-first search, trying alternative 1
then alternative 2 at each start position. -/
def findCaptures : List Char → Option RegexCaps
  | [] => none
  | s@(_ :: rest) =>
    match alt1 s with
    | some caps => some caps
    | none =>
      match alt2 s with
      | some caps => some caps
      | none => findCaptures rest

/-- `PathWithPosition` from `paths.rs`: a path with optional row and
column.  The source documents the invariant that `column` is absent if
`row` is absent. -/
structure PathWithPosition where
  path : List Char
  row : Option Nat
  column : Option Nat
deriving DecidableEq, Repr

/-- `PathWithPosition::parse_str`: trim the input, run the suffix regex
on the final path component, re-parse the captured row and column as
`u32`, and slice the captured suffix off the trimmed string. -/
def parse_str (s : List Char) : PathWithPosition :=
  if (fileNameOf (rustTrim s)).isEmpty then ⟨s, none, none⟩
  else
    match findCaptures (fileNameOf (rustTrim s)) with
    | some caps =>
      ⟨(rustTrim s).take ((rustTrim s).length -
          ((fileNameOf (rustTrim s)).length - caps.fileName.length)),
        parseU32 caps.rowStr, parseU32 caps.colStr⟩
    | none => ⟨s, none, none⟩

/-- `PathWithPosition::to_string`: render the path through the given
function and append `:row` and `:column` when present. -/
def PathWithPosition.toStr (x : PathWithPosition)
    (pathToString : List Char → List Char) : List Char :=
  let ps := pathToString x.path
  match x.row with
  | some r =>
    match x.column with
    | some c => ps ++ ':' :: (Nat.repr r).data ++ ':' :: (Nat.repr c).data
    | none => ps ++ ':' :: (Nat.repr r).data
  | none => ps

/-! ### Ordering helpers: Rust `Ord::cmp` on the primitive types used -/

/-- Rust `cmp` on unsigned integers. -/
def cmpNat (a b : Nat) : Ordering :=
  if a < b then .lt else if a = b then .eq else .gt

/-- Rust `cmp` on `bool`: `false < true`. -/
def cmpBool (a b : Bool) : Ordering := cmpNat a.toNat b.toNat

/-- Rust `cmp` on `char` (and byte-wise `cmp` on UTF-8 strings agrees
with code-point order character by character). -/
def cmpChar (a b : Char) : Ordering := cmpNat a.toNat b.toNat

/-- Rust lexicographic `cmp` on sequences. -/
def cmpLex {α : Type} (c : α → α → Ordering) : List α → List α → Ordering
  | [], [] => .eq
  | [], _ :: _ => .lt
  | _ :: _, [] => .gt
  | x :: xs, y :: ys => (c x y).then (cmpLex c xs ys)

/-- Rust `cmp` on `Option`: `None < Some`. -/
def cmpOption {α : Type} (c : α → α → Ordering) : Option α → Option α → Ordering
  | some x, some y => c x y
  | some _, none => .gt
  | none, some _ => .lt
  | none, none => .eq

/-- Lexicographic comparison of `Nat` triples. -/
def cmpTriple (x y : Nat × Nat × Nat) : Ordering :=
  (cmpNat x.1 y.1).then ((cmpNat x.2.1 y.2.1).then (cmpNat x.2.2 y.2.2))

/-! ### `natural_sort` and `compare_paths_with_strategy` -/

/-- The loop of `parse_number`: consume leading ASCII digits from the
character stream, accumulating `number * 10 + digit` in `u64`
arithmetic, which wraps modulo `2 ^ 64` (release-mode Rust), together
with the digit count. -/
def parseNumberAux : Nat → Nat → List Char → Nat × Nat
  | number, count, [] => (number, count)
  | number, count, c :: s =>
    if c.isDigit then
      parseNumberAux ((number * 10 + (c.toNat - 48)) % 2 ^ 64) (count + 1) s
    else (number, count)

/-- `parse_number`: value and digit count of the maximal leading digit
run (the Rust iterator is left positioned after that run, modelled with
`dropWhile` at the call sites). -/
def parse_number (s : List Char) : Nat × Nat := parseNumberAux 0 0 s

/-- `natural_sort`: walk both strings; when both heads are ASCII digits
compare the maximal digit runs by (wrapped) value then digit count,
otherwise compare the characters by code point; on equality continue
after the consumed parts. -/
def natural_sort : List Char → List Char → Ordering
  | [], [] => .eq
  | [], _ :: _ => .lt
  | _ :: _, [] => .gt
  | ac :: as, bc :: bs =>
    if ac.isDigit && bc.isDigit then
      match cmpNat (parse_number (ac :: as)).1 (parse_number (bc :: bs)).1 with
      | .eq =>
        match cmpNat (parse_number (ac :: as)).2 (parse_number (bc :: bs)).2 with
        | .eq => natural_sort (as.dropWhile Char.isDigit) (bs.dropWhile Char.isDigit)
        | o => o
      | o => o
    else
      match cmpChar ac bc with
      | .eq => natural_sort as bs
      | o => o
termination_by a _ => a.length
decreasing_by
· have key : ∀ (l : List Char), (l.dropWhile Char.isDigit).length ≤ l.length := by
    intro l
    induction l with
    | nil => exact Nat.le_refl _
    | cons c t ih =>
      rw [List.dropWhile_cons]
      split
      · exact Nat.le_trans ih (Nat.le_succ _)
      · exact Nat.le_refl _
  simp only [List.length_cons]
  have := key as
  omega
· simp only [List.length_cons]
  omega

/-- Token sequence underlying `natural_sort`, encoded as `Nat` triples
ordered by `cmpTriple`: a maximal digit run with wrapped value `v` and
length `l` becomes `(48, v, l)`, a non-digit character `c` becomes
`(c.toNat, 0, 0)`.  The first component `48` is justified because the
ASCII digits `48..57` are contiguous: comparing any digit against a
non-digit character gives the same result as comparing `48` against it.
The state carries the value and length of the digit run in progress. -/
def natKeyAux : Option (Nat × Nat) → List Char → List (Nat × Nat × Nat)
  | none, [] => []
  | some (v, l), [] => [(48, v, l)]
  | none, c :: s =>
    if c.isDigit then natKeyAux (some (c.toNat - 48, 1)) s
    else (c.toNat, 0, 0) :: natKeyAux none s
  | some (v, l), c :: s =>
    if c.isDigit then
      natKeyAux (some ((v * 10 + (c.toNat - 48)) % 2 ^ 64, l + 1)) s
    else (48, v, l) :: (c.toNat, 0, 0) :: natKeyAux none s

/-- The natural-sort key of a string. -/
def natKey (s : List Char) : List (Nat × Nat × Nat) := natKeyAux none s

/-- The natural-sort key as the specification words it (claim C8):
digit runs carry their EXACT numeric value, without `u64` wrapping. -/
def natKeyExactAux : Option (Nat × Nat) → List Char → List (Nat × Nat × Nat)
  | none, [] => []
  | some (v, l), [] => [(48, v, l)]
  | none, c :: s =>
    if c.isDigit then natKeyExactAux (some (c.toNat - 48, 1)) s
    else (c.toNat, 0, 0) :: natKeyExactAux none s
  | some (v, l), c :: s =>
    if c.isDigit then natKeyExactAux (some (v * 10 + (c.toNat - 48), l + 1)) s
    else (48, v, l) :: (c.toNat, 0, 0) :: natKeyExactAux none s

/-- The comparison described by the specification for the
`Alphabetical` strategy: digit runs as tokens compared by exact value
then digit count, other characters by code point. -/
def naturalSortSpec (a b : List Char) : Ordering :=
  cmpLex cmpTriple (natKeyExactAux none a) (natKeyExactAux none b)

/-- `SortStrategy` from `paths.rs`. -/
inductive SortStrategy where
  | Lexicographical
  | Alphabetical
deriving DecidableEq, Repr

/-- Modelled from the spec: `NumericPrefixWithSuffix::from_numeric_prefixed_str`
lives in `crates/util/src/lib.rs`, which is not part of this source
excerpt.  Per the spec (section 4.3), a compared name splits into an
optional leading numeric prefix and the remainder; comparison is by the
numeric prefix first (`None` before `Some`, Rust `Option` ordering),
then by the remainder.  The remainder comparison folds ASCII case, as
the repository's own sorting test requires
(`File-1.txt`, `file-10.txt`, `File-2.txt` sort in that order under
`Lexicographical`). -/
def fromNumericPrefixedStr (s : List Char) : Option Nat × List Char :=
  (if (s.takeWhile Char.isDigit).isEmpty then none
   else some (digitsToNat (s.takeWhile Char.isDigit)),
   s.dropWhile Char.isDigit)

/-- ASCII lower-casing of a code point, for the case-folded remainder
comparison. -/
def asciiLower (c : Char) : Nat :=
  if 65 ≤ c.toNat ∧ c.toNat ≤ 90 then c.toNat + 32 else c.toNat

/-- Case-insensitive string comparison (ASCII folding). -/
def cmpCaseInsensitive (a b : List Char) : Ordering :=
  cmpLex cmpNat (a.map asciiLower) (b.map asciiLower)

/-- Modelled from the spec: ordering on `NumericPrefixWithSuffix`
values. -/
def cmpNumericPrefix (x y : Option Nat × List Char) : Ordering :=
  (cmpOption cmpNat x.1 y.1).then (cmpCaseInsensitive x.2 y.2)

/-- Rust `Path::new(component).file_name()` for a single component
string: `None` for the empty string, `/`, `.` and `..`, otherwise the
name itself. -/
def compFileName (c : List Char) : Option (List Char) :=
  if c = [] ∨ c = ['/'] ∨ c = ['.'] ∨ c = ['.', '.'] then none else some c

/-- Rust `split_file_at_dot`: stem and extension of a file name.  `..`
is all stem; otherwise split at the last `.` unless that dot is the
leading character. -/
def splitFileAtDot (name : List Char) : List Char × Option (List Char) :=
  if name = ['.', '.'] then (name, none)
  else
    match name.reverse.takeWhile (· != '.'), name.reverse.dropWhile (· != '.') with
    | _, [] => (name, none)
    | after, '.' :: before =>
      if before.isEmpty then (name, none)
      else (before.reverse, some after.reverse)
    | _, _ => (name, none)

/-- Rust `Path::file_stem()` of a component. -/
def compFileStem (c : List Char) : Option (List Char) :=
  (compFileName c).map (fun n => (splitFileAtDot n).1)

/-- Rust `Path::extension()` of a component. -/
def compExtension (c : List Char) : Option (List Char) :=
  (compFileName c).bind (fun n => (splitFileAtDot n).2)

/-- The component-name comparison chosen by the strategy, on the
optional stem/name strings (`Option` ordered with `None < Some`, as in
the source for both strategies). -/
def stratNameCmp (strat : SortStrategy) (a b : Option (List Char)) : Ordering :=
  match strat with
  | .Lexicographical =>
    cmpOption cmpNumericPrefix (a.map fromNumericPrefixedStr)
      (b.map fromNumericPrefixedStr)
  | .Alphabetical => cmpOption natural_sort a b

/-- The body of the `compare_paths_with_strategy` loop for one pair of
components: files after directories, then the stem (for a terminal
file) or the full name (otherwise) under the strategy, then, between
two terminal files, the extensions (`unwrap_or_default`). -/
def componentCmp (strat : SortStrategy) (af bf : Bool)
    (ca cb : List Char) : Ordering :=
  (cmpBool af bf).then
    ((stratNameCmp strat (if af then compFileStem ca else compFileName ca)
        (if bf then compFileStem cb else compFileName cb)).then
      (if af && bf then
        cmpLex cmpChar ((compExtension ca).getD []) ((compExtension cb).getD [])
       else .eq))

/-- The loop of `compare_paths_with_strategy` over the two component
lists: a component counts as a file only when it is terminal and the
overall flag is set; the first non-`Equal` comparison decides; a strict
prefix sorts first. -/
def cmpComponents (strat : SortStrategy) (aIsFile bIsFile : Bool) :
    List (List Char) → List (List Char) → Ordering
  | ca :: cas, cb :: cbs =>
    match componentCmp strat (cas.isEmpty && aIsFile) (cbs.isEmpty && bIsFile)
        ca cb with
    | .eq => cmpComponents strat aIsFile bIsFile cas cbs
    | o => o
  | _ :: _, [] => .gt
  | [], _ :: _ => .lt
  | [], [] => .eq

/-- `compare_paths_with_strategy` on `(path, is_file)` pairs. -/
def compare_paths_with_strategy (a b : List Char × Bool)
    (strat : SortStrategy) : Ordering :=
  cmpComponents strat a.2 b.2 (pathComponents a.1) (pathComponents b.1)

/-- Components annotated with their terminal-file flag: every component
is a directory except the last, which carries the overall flag. -/
def annotate (isFile : Bool) : List (List Char) → List (List Char × Bool)
  | [] => []
  | [c] => [(c, isFile)]
  | c :: c2 :: rest => (c, false) :: annotate isFile (c2 :: rest)

/-! ### `PathMatcher`: glob compilation and matching -/

/-- A compiled `globset` token.  `lit` is a literal character, `one` is
`?` (any one character), `star` is `*` (`.*`: `globset` compiles these
globs without `literal_separator`, and with dot-matches-newline), `rpre`
is a leading `**/` (regex `(?:/?|.*/)`), `rsuf` is a trailing `/**`
(regex `/.*`), `rmid` is an inner `/**/` (regex `(?:/|/.*/)`). -/
inductive GTok where
  | lit (c : Char)
  | one
  | star
  | rpre
  | rsuf
  | rmid
deriving DecidableEq, Repr

/-- `pop_token` followed by the push, in the `Glob` parser's handling
of a recursive `**`: a popped `RecursivePrefix` or `RecursiveSuffix` is
pushed back unchanged, anything else is replaced by the given recursive
token.  `acc` is the token stack, most recent first. -/
def pushRec (acc : List GTok) (tok : GTok) : Option (List GTok) :=
  match acc with
  | [] => none
  | t :: rest =>
    match t with
    | .rpre => some (.rpre :: rest)
    | .rsuf => some (.rsuf :: rest)
    | _ => some (tok :: rest)

/-- The `globset` `Glob` parser (`Glob::new`), restricted to literals,
`?`, `*` and the recursive `**` forms; `[`, `]`, `{`, `}` and `\`
return `none` (character classes, alternates and escapes are outside
the modelled subset).  `acc` holds the parsed tokens most recent first
and `prev` the previously consumed character, as in the Rust parser:
a `**` bounded by separators (or the pattern edges) pops the preceding
token and becomes a recursive token, otherwise it is two `*`s. -/
def parseGlobChars : List GTok → Option Char → List Char → Option (List GTok)
  | acc, _, [] => some acc.reverse
  | acc, prev, '*' :: '*' :: [] =>
    if acc.isEmpty then some (GTok.rpre :: acc).reverse
    else if prev ≠ some '/' then some (GTok.star :: GTok.star :: acc).reverse
    else (pushRec acc .rsuf).map List.reverse
  | acc, prev, '*' :: '*' :: '/' :: rest3 =>
    if acc.isEmpty then parseGlobChars (.rpre :: acc) (some '/') rest3
    else if prev ≠ some '/' then
      parseGlobChars (.star :: .star :: acc) (some '*') ('/' :: rest3)
    else
      match pushRec acc .rmid with
      | some acc2 => parseGlobChars acc2 (some '/') rest3
      | none => none
  | acc, _, '*' :: '*' :: c2 :: rest2 =>
    parseGlobChars (.star :: .star :: acc) (some '*') (c2 :: rest2)
  | acc, _, '*' :: rest => parseGlobChars (.star :: acc) (some '*') rest
  | acc, _, c :: rest =>
    if c = '[' ∨ c = ']' ∨ c = '{' ∨ c = '}' ∨ c = '\\' then none
    else if c = '?' then parseGlobChars (.one :: acc) (some '?') rest
    else parseGlobChars (.lit c :: acc) (some c) rest

/-- The suffixes of `s` that begin immediately after some `/`. -/
def suffixesAfterSlash : List Char → List (List Char)
  | [] => []
  | c :: s => (if c = '/' then [s] else []) ++ suffixesAfterSlash s

/-- Matching a token list against a whole string: the boolean
semantics of the compiled `globset` regex (anchored at both ends, `.`
matching every character).  `star` tries every suffix; `rpre` matches
nothing or any prefix ending in `/`; `rsuf` consumes a `/` and then
anything; `rmid` consumes a `/` or a `/`-delimited infix. -/
def gMatch : List GTok → List Char → Bool
  | [], s => s.isEmpty
  | .lit c :: ts, s =>
    match s with
    | [] => false
    | d :: r => c = d && gMatch ts r
  | .one :: ts, s =>
    match s with
    | [] => false
    | _ :: r => gMatch ts r
  | .star :: ts, s => s.tails.any (fun v => gMatch ts v)
  | .rpre :: ts, s =>
    gMatch ts s || (suffixesAfterSlash s).any (fun v => gMatch ts v)
  | .rsuf :: ts, s =>
    match s with
    | [] => false
    | c :: r => c = '/' && r.tails.any (fun v => gMatch ts v)
  | .rmid :: ts, s =>
    match s with
    | [] => false
    | c :: r =>
      c = '/' && (gMatch ts r || (suffixesAfterSlash r).any (fun v => gMatch ts v))

/-- `PathMatcher`: the pattern source strings and the compiled glob
set (equality is over `sources` only in the source; here both fields
are determined by the sources via compilation). -/
structure PathMatcher where
  sources : List (List Char)
  globs : List (List GTok)
deriving DecidableEq, Repr

/-- Compile a list of glob patterns, failing if any fails
(`collect::<Result<Vec<_>, _>>()`). -/
def compileGlobs : List (List Char) → Option (List (List GTok))
  | [] => some []
  | pat :: ps =>
    match parseGlobChars [] none pat, compileGlobs ps with
    | some g, some gs => some (g :: gs)
    | _, _ => none

/-- `PathMatcher::new`: compile every pattern (`none` when a pattern
falls outside the modelled glob subset), keeping the pattern strings as
`sources`. -/
def PathMatcher.new (patterns : List (List Char)) : Option PathMatcher :=
  (compileGlobs patterns).map (fun gs => ⟨patterns, gs⟩)

/-- `PathMatcher::check_with_end_separator`: `false` for candidates
already ending in the separator, otherwise the glob set is retried with
a separator appended. -/
def PathMatcher.check_with_end_separator (m : PathMatcher) (p : List Char) : Bool :=
  if p.getLast? = some '/' then false
  else m.globs.any (fun g => gMatch g (p ++ ['/']))

/-- `PathMatcher::is_match`: the byte prefix/suffix fast path over the
pattern sources, then the glob set, then the trailing-separator
fallback, short-circuiting on the first success. -/
def PathMatcher.is_match (m : PathMatcher) (p : List Char) : Bool :=
  m.sources.any (fun src => src.isPrefixOf p || src.isSuffixOf p)
  || m.globs.any (fun g => gMatch g p)
  || m.check_with_end_separator p

/-! ### Examples: the doc tests and unit tests of `parse_str` -/

example : parse_str "test_file".data = ⟨"test_file".data, none, none⟩ := by decide
example : parse_str "test_file:10".data = ⟨"test_file".data, some 10, none⟩ := by decide
example : parse_str "test_file.rs:1:2".data = ⟨"test_file.rs".data, some 1, some 2⟩ := by decide
example : parse_str "test_file.rs:a".data = ⟨"test_file.rs:a".data, none, none⟩ := by decide
example : parse_str "test_file.rs:a:b".data = ⟨"test_file.rs:a:b".data, none, none⟩ := by decide
example : parse_str "test_file.rs::".data = ⟨"test_file.rs".data, none, none⟩ := by decide
example : parse_str "test_file.rs::1".data = ⟨"test_file.rs".data, some 1, none⟩ := by decide
example : parse_str "test_file.rs:1::".data = ⟨"test_file.rs".data, some 1, none⟩ := by decide
example : parse_str "test_file.rs::1:2".data = ⟨"test_file.rs".data, some 1, some 2⟩ := by decide
example : parse_str "test_file.rs:1::2".data = ⟨"test_file.rs:1".data, some 2, none⟩ := by decide
example : parse_str "test_file.rs:1:2:3".data = ⟨"test_file.rs:1".data, some 2, some 3⟩ := by decide
example : parse_str " test_file".data = ⟨"test_file".data, none, none⟩ := by decide
example : parse_str "a:bc:.zip:1".data = ⟨"a:bc:.zip".data, some 1, none⟩ := by decide
example : parse_str "one.second.zip:1".data = ⟨"one.second.zip".data, some 1, none⟩ := by decide
example : parse_str "test_file:10:1:".data = ⟨"test_file".data, some 10, some 1⟩ := by decide
example : parse_str "test_file.rs:".data = ⟨"test_file.rs".data, none, none⟩ := by decide
example : parse_str "test_file.rs:1:".data = ⟨"test_file.rs".data, some 1, none⟩ := by decide
example : parse_str "crates/file_finder/src/file_finder.rs:1902:13:".data =
    ⟨"crates/file_finder/src/file_finder.rs".data, some 1902, some 13⟩ := by decide
example : parse_str "crate/utils/src/test:today.log:34".data =
    ⟨"crate/utils/src/test:today.log".data, some 34, none⟩ := by decide
example : parse_str "app-editors:zed-0.143.6:20240710-201212.log:34:".data =
    ⟨"app-editors:zed-0.143.6:20240710-201212.log".data, some 34, none⟩ := by decide
example : parse_str "test.c(22)".data = ⟨"test.c".data, some 22, none⟩ := by decide
example : parse_str "test.c(22,5)".data = ⟨"test.c".data, some 22, some 5⟩ := by decide

/-! ### Structural facts about the capture search -/

theorem all_takeWhile {α : Type} (p : α → Bool) (l : List α) :
    (l.takeWhile p).all p = true := by
  induction l with
  | nil => rfl
  | cons c l ih =>
    by_cases h : p c
    · simp [List.takeWhile_cons, h, ih]
    · simp [List.takeWhile_cons, h]

theorem alt1_spec {s : List Char} {caps : RegexCaps} (h : alt1 s = some caps) :
    caps.fileName.length < s.length ∧
    caps.rowStr.all Char.isDigit ∧ caps.colStr.all Char.isDigit := by
  have hs := List.takeWhile_append_dropWhile (p := (· != '(')) (l := s)
  have hlen : (s.takeWhile (· != '(')).length + (s.dropWhile (· != '(')).length
      = s.length := by
    rw [← List.length_append, hs]
  simp only [alt1] at h
  split at h
  · exact absurd h (by simp)
  split at h
  · rename_i hdrop
    have hd : 1 ≤ (s.dropWhile (· != '(')).length := by
      cases hds : s.dropWhile (· != '(') with
      | nil => rw [hds] at hdrop; simp at hdrop
      | cons a t => simp [hds]
    split at h
    · exact absurd h (by simp)
    split at h
    · split at h
      · exact absurd h (by simp)
      split at h
      · injection h with h
        subst h
        refine ⟨?_, all_takeWhile _ _, all_takeWhile _ _⟩
        show (s.takeWhile (· != '(')).length < s.length
        omega
      · exact absurd h (by simp)
    split at h
    · injection h with h
      subst h
      refine ⟨?_, all_takeWhile _ _, by simp⟩
      show (s.takeWhile (· != '(')).length < s.length
      omega
    · exact absurd h (by simp)
  · exact absurd h (by simp)

theorem branchA_spec {r : List Char} {d : List Char × List Char}
    (h : branchA r = some d) :
    r ≠ [] ∧ d.1 ≠ [] ∧ d.2 ≠ [] ∧
    d.1.all Char.isDigit ∧ d.2.all Char.isDigit := by
  simp only [branchA] at h
  split at h
  · exact absurd h (by simp)
  rename_i hc1
  split at h
  · exact absurd h (by simp)
  rename_i hd1
  split at h
  · split at h
    · exact absurd h (by simp)
    rename_i hd2
    split at h
    · injection h with h
      subst h
      refine ⟨?_, by simpa using hd1, by simpa using hd2,
        all_takeWhile _ _, all_takeWhile _ _⟩
      intro hr
      rw [hr] at hc1
      simp at hc1
    · exact absurd h (by simp)
  · exact absurd h (by simp)

theorem branchB_spec {r : List Char} {d : List Char}
    (h : branchB r = some d) :
    r ≠ [] ∧ d ≠ [] ∧ d.all Char.isDigit := by
  simp only [branchB] at h
  split at h
  · exact absurd h (by simp)
  rename_i hc1
  split at h
  · exact absurd h (by simp)
  rename_i hd1
  split at h
  · injection h with h
    subst h
    refine ⟨?_, by simpa using hd1, all_takeWhile _ _⟩
    intro hr
    rw [hr] at hc1
    simp at hc1
  · exact absurd h (by simp)

theorem alt2Branches_spec {pre s : List Char} {caps : RegexCaps}
    (h : alt2Branches pre s = some caps) :
    caps.fileName.length = pre.length ∧
    (caps.rowStr ≠ [] → s ≠ []) ∧
    (caps.rowStr = [] → caps.colStr = []) ∧
    caps.rowStr.all Char.isDigit ∧ caps.colStr.all Char.isDigit := by
  unfold alt2Branches at h
  split at h
  · rename_i d1 d2 hA
    injection h with h
    subst h
    obtain ⟨hr, hd1, hd2, ha1, ha2⟩ := branchA_spec hA
    exact ⟨by simp, fun _ => hr, fun he => absurd he hd1, ha1, ha2⟩
  · rename_i hA
    split at h
    · rename_i d1 hB
      injection h with h
      subst h
      obtain ⟨hr, hd1, ha1⟩ := branchB_spec hB
      exact ⟨by simp, fun _ => hr, fun _ => rfl, ha1, by simp⟩
    · rename_i hB
      split at h
      · injection h with h
        subst h
        exact ⟨by simp, by simp, fun _ => rfl, by simp, by simp⟩
      · exact absurd h (by simp)

theorem alt2Aux_spec :
    ∀ (s pre : List Char) (caps : RegexCaps), alt2Aux pre s = some caps →
    caps.fileName.length ≤ pre.length + s.length ∧
    (caps.rowStr ≠ [] → caps.fileName.length < pre.length + s.length) ∧
    (caps.fileName.length = pre.length + s.length →
      caps.rowStr = [] ∧ caps.colStr = []) ∧
    caps.rowStr.all Char.isDigit ∧ caps.colStr.all Char.isDigit := by
  intro s
  induction s with
  | nil =>
    intro pre caps h
    have h' : alt2Branches pre [] = some caps := h
    obtain ⟨hlen, hrow, hrc, ha1, ha2⟩ := alt2Branches_spec h'
    have hrnil : caps.rowStr = [] := by
      by_cases hr : caps.rowStr = []
      · exact hr
      · exact absurd rfl (hrow hr)
    exact ⟨by omega, fun hr => absurd hrnil hr, fun _ => ⟨hrnil, hrc hrnil⟩,
      ha1, ha2⟩
  | cons c rest ih =>
    intro pre caps h
    have h' : (match alt2Branches pre (c :: rest) with
        | some caps => some caps
        | none => if c = '\n' then none else alt2Aux (c :: pre) rest)
        = some caps := h
    cases hb : alt2Branches pre (c :: rest) with
    | some caps1 =>
      rw [hb] at h'
      have h'' : some caps1 = some caps := h'
      injection h'' with h''
      subst h''
      obtain ⟨hlen, hrow, hrc, ha1, ha2⟩ := alt2Branches_spec hb
      simp only [List.length_cons]
      exact ⟨by omega, fun _ => by omega, fun he => absurd he (by omega),
        ha1, ha2⟩
    | none =>
      rw [hb] at h'
      have h'' : (if c = '\n' then none else alt2Aux (c :: pre) rest)
          = some caps := h'
      split at h''
      · exact absurd h'' (by simp)
      · have := ih (c :: pre) caps h''
        simp only [List.length_cons] at this ⊢
        exact ⟨by omega, fun hr => by have := this.2.1 hr; omega,
          fun he => this.2.2.1 (by omega), this.2.2.2⟩

theorem findCaptures_spec :
    ∀ (f : List Char) (caps : RegexCaps), findCaptures f = some caps →
    caps.fileName.length ≤ f.length ∧
    (caps.rowStr ≠ [] → caps.fileName.length < f.length) ∧
    (caps.fileName.length = f.length → caps.rowStr = [] ∧ caps.colStr = []) ∧
    caps.rowStr.all Char.isDigit ∧ caps.colStr.all Char.isDigit := by
  intro f
  induction f with
  | nil => intro caps h; exact absurd h (by simp [findCaptures])
  | cons c rest ih =>
    intro caps h
    have h' : (match alt1 (c :: rest) with
        | some caps => some caps
        | none =>
          match alt2 (c :: rest) with
          | some caps => some caps
          | none => findCaptures rest) = some caps := h
    cases h1 : alt1 (c :: rest) with
    | some caps1 =>
      rw [h1] at h'
      have h'' : some caps1 = some caps := h'
      injection h'' with h''
      subst h''
      obtain ⟨hlt, ha1, ha2⟩ := alt1_spec h1
      exact ⟨Nat.le_of_lt hlt, fun _ => hlt, fun he => absurd he (by omega),
        ha1, ha2⟩
    | none =>
      rw [h1] at h'
      cases h2 : alt2 (c :: rest) with
      | some caps2 =>
        rw [h2] at h'
        have h'' : some caps2 = some caps := h'
        injection h'' with h''
        subst h''
        have h2' : (if c = '\n' then none else alt2Aux [c] rest)
            = some caps2 := h2
        split at h2'
        · exact absurd h2' (by simp)
        · have := alt2Aux_spec rest [c] caps2 h2'
          simp only [List.length_cons, List.length_nil] at this ⊢
          exact ⟨by omega, fun hr => by have := this.2.1 hr; omega,
            fun he => this.2.2.1 (by omega), this.2.2.2⟩
      | none =>
        rw [h2] at h'
        have := ih caps h'
        simp only [List.length_cons] at this ⊢
        exact ⟨by omega, fun hr => by have := this.2.1 hr; omega,
          fun he => absurd he (by omega), this.2.2.2⟩

/-! ### Auxiliary facts for the parse claims -/

theorem dropWhile_length_le {α : Type} (p : α → Bool) (l : List α) :
    (l.dropWhile p).length ≤ l.length := by
  induction l with
  | nil => simp
  | cons c t ih =>
    rw [List.dropWhile_cons]
    split
    · simp only [List.length_cons]
      omega
    · exact Nat.le_refl _

theorem rustTrim_length_le (s : List Char) : (rustTrim s).length ≤ s.length := by
  unfold rustTrim
  have h1 := dropWhile_length_le isRustWhitespace s
  have h2 := dropWhile_length_le isRustWhitespace
    (s.dropWhile isRustWhitespace).reverse
  simp only [List.length_reverse] at *
  omega

theorem parseU32_digits {s : List Char} (hne : s ≠ [])
    (hdig : s.all Char.isDigit) :
    parseU32 s = if digitsToNat s < 2 ^ 32 then some (digitsToNat s)
      else none := by
  cases s with
  | nil => exact absurd rfl hne
  | cons c r =>
    have hc : c.isDigit := by
      have := hdig
      simp only [List.all_cons, Bool.and_eq_true] at this
      exact this.1
    have hcp : ¬((c :: r).head? = some '+') := by
      simp only [List.head?_cons, Option.some.injEq]
      intro h
      rw [h] at hc
      exact absurd hc (by decide)
    simp only [parseU32, if_neg hcp]
    rw [if_neg (by simp), if_pos hdig]

/-- Claim C1: the failing input.  `parse_str` of `file.rs:4294967296:5`
captures row `4294967296`, whose `u32` parse fails, and column `5`, whose
parse succeeds: the result has `column = some 5` with `row = none`,
violating the documented invariant that `column` is absent whenever
`row` is absent. -/
theorem c1_parse_str_column_without_row :
    parse_str "file.rs:4294967296:5".data = ⟨"file.rs".data, none, some 5⟩ := by
  decide

/-- Claim C2, counterexample: for `file.rs:4294967296` the captured row
digits fail to parse as `u32`, but `parse_str` still strips the suffix,
returning path `file.rs` rather than the whole input. -/
theorem c2_counterexample_suffix_still_stripped :
    parse_str "file.rs:4294967296".data = ⟨"file.rs".data, none, none⟩ ∧
    "file.rs".data ≠ "file.rs:4294967296".data := by decide

/-- Claim C2 (amended): when the final component of the trimmed input
matches the position-suffix pattern with a nonempty captured row whose
digits overflow `u32`, `parse_str` nevertheless strips the matched
suffix: the row is `None`, the column is the result of parsing the
column capture, and the returned path is the trimmed input with the
suffix removed, which is strictly shorter than the input. -/
theorem c2_amended_row_overflow_strips_suffix (s : List Char)
    (caps : RegexCaps)
    (hcaps : findCaptures (fileNameOf (rustTrim s)) = some caps)
    (hrow : caps.rowStr ≠ [])
    (hbig : 2 ^ 32 ≤ digitsToNat caps.rowStr) :
    (parse_str s).row = none ∧
    (parse_str s).column = parseU32 caps.colStr ∧
    (parse_str s).path =
      (rustTrim s).take ((rustTrim s).length -
        ((fileNameOf (rustTrim s)).length - caps.fileName.length)) ∧
    (parse_str s).path ≠ s := by
  have hfne : fileNameOf (rustTrim s) ≠ [] := by
    intro h
    rw [h] at hcaps
    exact absurd hcaps (by simp [findCaptures])
  have hspec := findCaptures_spec _ _ hcaps
  have hlt : caps.fileName.length < (fileNameOf (rustTrim s)).length :=
    hspec.2.1 hrow
  have hrownone : parseU32 caps.rowStr = none := by
    rw [parseU32_digits hrow hspec.2.2.2.1]
    rw [if_neg (by omega)]
  have hps : parse_str s =
      ⟨(rustTrim s).take ((rustTrim s).length -
          ((fileNameOf (rustTrim s)).length - caps.fileName.length)),
        parseU32 caps.rowStr, parseU32 caps.colStr⟩ := by
    unfold parse_str
    rw [if_neg (by simp [hfne]), hcaps]
  have htne : rustTrim s ≠ [] := by
    intro h
    rw [h] at hfne
    exact hfne rfl
  have hlen2 : (parse_str s).path.length < s.length := by
    rw [hps]
    dsimp only
    rw [List.length_take]
    have h2 : 0 < (rustTrim s).length := List.length_pos.mpr htne
    have h3 := rustTrim_length_le s
    omega
  refine ⟨by rw [hps]; exact hrownone, by rw [hps], by rw [hps], ?_⟩
  intro he
  rw [he] at hlen2
  exact absurd hlen2 (lt_irrefl _)

/-- Claim C2 amended, witness at `file.rs:4294967296`. -/
theorem c2_amended_row_overflow_strips_suffix_witness :
    (parse_str "file.rs:4294967296".data).row = none ∧
    (parse_str "file.rs:4294967296".data).path ≠ "file.rs:4294967296".data :=
  have h := c2_amended_row_overflow_strips_suffix "file.rs:4294967296".data
    ⟨"file.rs".data, "4294967296".data, []⟩ (by decide) (by decide) (by decide)
  ⟨h.1, h.2.2.2⟩

/-- Claim C3, counterexample: `" file"` has no row/column suffix at all,
yet `parse_str` trims the leading space, so rendering the result back
does not reproduce the input. -/
theorem c3_counterexample_whitespace_not_round_tripped :
    (parse_str " file".data).row = none ∧
    (parse_str " file".data).column = none ∧
    (parse_str " file".data).toStr id ≠ " file".data := by decide

/-- Claim C3 (amended): round-trip identity holds for every input that
carries no surrounding whitespace (it equals its trim) and whose final
component has no position suffix, in the sense that the suffix pattern
strips nothing (any match captures the entire final component).  Then
`parse_str` returns the input itself with no row or column, and
rendering with the identity path function reproduces the input. -/
theorem c3_amended_round_trip (p : List Char)
    (htrim : rustTrim p = p)
    (hns : ∀ caps, findCaptures (fileNameOf p) = some caps →
      caps.fileName.length = (fileNameOf p).length) :
    (parse_str p).toStr id = p := by
  unfold parse_str
  rw [htrim]
  by_cases hie : (fileNameOf p).isEmpty
  · rw [if_pos hie]
    rfl
  · rw [if_neg hie]
    cases hc : findCaptures (fileNameOf p) with
    | none => rfl
    | some caps =>
      have hlen := hns caps hc
      have hempty := (findCaptures_spec _ _ hc).2.2.1 hlen
      show (⟨p.take (p.length - ((fileNameOf p).length - caps.fileName.length)),
        parseU32 caps.rowStr, parseU32 caps.colStr⟩ : PathWithPosition).toStr id
        = p
      rw [hempty.1, hempty.2, hlen]
      simp only [Nat.sub_self, Nat.sub_zero, List.take_length]
      rfl

/-- Claim C3 amended, witness at `a/b.txt`. -/
theorem c3_amended_round_trip_witness :
    (parse_str "a/b.txt".data).toStr id = "a/b.txt".data :=
  c3_amended_round_trip "a/b.txt".data (by decide)
    (fun caps hc => by
      rw [show findCaptures (fileNameOf "a/b.txt".data) =
        some ⟨"b.txt".data, [], []⟩ from by decide] at hc
      cases hc
      decide)

/-- Claim C6: embedded colons before the terminal numeric suffix stay in
the path and only the final suffix is stripped. -/
theorem c6_embedded_colons_only_final_suffix_stripped :
    parse_str "test_file.rs:1::2".data = ⟨"test_file.rs:1".data, some 2, none⟩ ∧
    parse_str "a:bc:.zip:1".data = ⟨"a:bc:.zip".data, some 1, none⟩ := by decide

/-- Claim C9: when `row` is `None`, `to_string` returns exactly the
rendered path, whatever the `column` field holds. -/
theorem c9_to_string_ignores_column_without_row
    (p : List Char) (c : Option Nat) (f : List Char → List Char) :
    PathWithPosition.toStr ⟨p, none, c⟩ f = f p := rfl

/-! ### Lawful comparators: the strict-weak-order package -/

theorem then_eq_iff {o p : Ordering} :
    o.then p = .eq ↔ o = .eq ∧ p = .eq := by
  cases o <;> cases p <;> simp [Ordering.then]

theorem then_lt_iff {o p : Ordering} :
    o.then p = .lt ↔ o = .lt ∨ (o = .eq ∧ p = .lt) := by
  cases o <;> cases p <;> simp [Ordering.then]

theorem eq_then (p : Ordering) : Ordering.eq.then p = p := rfl

theorem then_of_ne {o : Ordering} (h : o ≠ .eq) (p : Ordering) :
    o.then p = o := by
  cases o
  · rfl
  · exact absurd rfl h
  · rfl

theorem cmpNat_eq_iff {a b : Nat} : cmpNat a b = .eq ↔ a = b := by
  unfold cmpNat
  split
  · rename_i h
    simp only [reduceCtorEq, false_iff]
    omega
  split
  · rename_i h
    simpa using h
  · rename_i h1 h2
    simp only [reduceCtorEq, false_iff]
    omega

theorem cmpNat_lt_iff {a b : Nat} : cmpNat a b = .lt ↔ a < b := by
  unfold cmpNat
  split
  · rename_i h
    simpa using h
  split
  · rename_i h
    simp only [reduceCtorEq, false_iff]
    omega
  · rename_i h1 h2
    simp only [reduceCtorEq, false_iff]
    omega

theorem cmpNat_swap (a b : Nat) : (cmpNat a b).swap = cmpNat b a := by
  unfold cmpNat
  rcases Nat.lt_trichotomy a b with h | h | h
  · rw [if_pos h, if_neg (by omega), if_neg (by omega)]
    rfl
  · rw [if_neg (by omega), if_pos h, if_neg (by omega), if_pos h.symm]
    rfl
  · rw [if_neg (by omega), if_neg (by omega), if_pos h]
    rfl

theorem cmpNat_self (a : Nat) : cmpNat a a = .eq := by
  rw [cmpNat_eq_iff]

/-- The laws making an `Ordering`-valued comparator a strict weak
order: reflexively `eq`, swap-antisymmetric, transitive on `lt`, with
`eq` congruent for the comparison. -/
structure LawfulCmp {α : Type} (c : α → α → Ordering) : Prop where
  refl : ∀ x, c x x = .eq
  swapEq : ∀ x y, (c x y).swap = c y x
  lt_trans : ∀ x y z, c x y = .lt → c y z = .lt → c x z = .lt
  eq_left : ∀ x y z, c x y = .eq → c x z = c y z

theorem LawfulCmp.eq_right {α : Type} {c : α → α → Ordering}
    (h : LawfulCmp c) {x y : α} (he : c x y = .eq) (z : α) :
    c z x = c z y := by
  rw [← h.swapEq x z, ← h.swapEq y z, h.eq_left x y z he]

theorem LawfulCmp.lt_iff_gt {α : Type} {c : α → α → Ordering}
    (h : LawfulCmp c) (x y : α) : c x y = .lt ↔ c y x = .gt := by
  constructor
  · intro hl
    rw [← h.swapEq x y, hl]
    rfl
  · intro hg
    cases hxy : c x y
    · rfl
    · rw [← h.swapEq x y, hxy] at hg
      exact absurd hg (by decide)
    · rw [← h.swapEq x y, hxy] at hg
      exact absurd hg (by decide)

theorem LawfulCmp.eq_trans {α : Type} {c : α → α → Ordering}
    (h : LawfulCmp c) {x y z : α} (h1 : c x y = .eq) (h2 : c y z = .eq) :
    c x z = .eq := by
  rw [h.eq_left x y z h1, h2]

theorem LawfulCmp.comb {α : Type} {c1 c2 : α → α → Ordering}
    (h1 : LawfulCmp c1) (h2 : LawfulCmp c2) :
    LawfulCmp (fun x y => (c1 x y).then (c2 x y)) := by
  constructor
  · intro x
    simp only [h1.refl, h2.refl]
    rfl
  · intro x y
    simp only [Ordering.swap_then, h1.swapEq, h2.swapEq]
  · intro x y z hxy hyz
    simp only [then_lt_iff] at hxy hyz ⊢
    rcases hxy with hxy | ⟨hxy, hxy2⟩
    · rcases hyz with hyz | ⟨hyz, hyz2⟩
      · exact Or.inl (h1.lt_trans x y z hxy hyz)
      · left
        rw [← h1.eq_right hyz x]
        exact hxy
    · rcases hyz with hyz | ⟨hyz, hyz2⟩
      · left
        rw [h1.eq_left x y z hxy]
        exact hyz
      · right
        exact ⟨by rw [h1.eq_left x y z hxy, hyz],
          h2.lt_trans x y z hxy2 hyz2⟩
  · intro x y z he
    simp only [then_eq_iff] at he
    simp only [h1.eq_left x y z he.1, h2.eq_left x y z he.2]

theorem LawfulCmp.pull {α β : Type} {c : β → β → Ordering}
    (h : LawfulCmp c) (f : α → β) : LawfulCmp (fun x y => c (f x) (f y)) := by
  constructor
  · intro x
    exact h.refl _
  · intro x y
    exact h.swapEq _ _
  · intro x y z hxy hyz
    exact h.lt_trans _ _ _ hxy hyz
  · intro x y z he
    exact h.eq_left _ _ _ he

theorem LawfulCmp.congrFun {α : Type} {c c' : α → α → Ordering}
    (h : LawfulCmp c) (he : ∀ x y, c' x y = c x y) : LawfulCmp c' := by
  constructor
  · intro x
    rw [he, h.refl]
  · intro x y
    rw [he, he, h.swapEq]
  · intro x y z hxy hyz
    rw [he] at hxy hyz ⊢
    exact h.lt_trans _ _ _ hxy hyz
  · intro x y z heq
    rw [he] at heq
    rw [he, he, h.eq_left _ _ _ heq]

theorem lawful_cmpNat : LawfulCmp cmpNat := by
  constructor
  · exact cmpNat_self
  · exact cmpNat_swap
  · intro x y z hxy hyz
    rw [cmpNat_lt_iff] at hxy hyz ⊢
    omega
  · intro x y z he
    rw [cmpNat_eq_iff] at he
    rw [he]

theorem lawful_cmpBool : LawfulCmp cmpBool := lawful_cmpNat.pull Bool.toNat

theorem lawful_cmpChar : LawfulCmp cmpChar := lawful_cmpNat.pull Char.toNat

theorem lawful_cmpTriple : LawfulCmp cmpTriple :=
  ((lawful_cmpNat.pull (fun x : Nat × Nat × Nat => x.1)).comb
    ((lawful_cmpNat.pull (fun x : Nat × Nat × Nat => x.2.1)).comb
      (lawful_cmpNat.pull (fun x : Nat × Nat × Nat => x.2.2)))).congrFun
    (fun _ _ => rfl)

theorem lawful_cmpLex {α : Type} {c : α → α → Ordering} (h : LawfulCmp c) :
    LawfulCmp (cmpLex c) := by
  constructor
  · intro x
    induction x with
    | nil => rfl
    | cons a t ih =>
      show (c a a).then (cmpLex c t t) = .eq
      rw [h.refl, ih]
      rfl
  · intro x y
    induction x generalizing y with
    | nil => cases y <;> rfl
    | cons a t ih =>
      cases y with
      | nil => rfl
      | cons b u =>
        show ((c a b).then (cmpLex c t u)).swap = (c b a).then (cmpLex c u t)
        rw [Ordering.swap_then, h.swapEq, ih]
  · intro x y z hxy hyz
    induction x generalizing y z with
    | nil =>
      cases y with
      | nil => exact absurd hxy (by simp [cmpLex])
      | cons b u =>
        cases z with
        | nil => exact absurd hyz (by simp [cmpLex])
        | cons cz tz => rfl
    | cons a t ih =>
      cases y with
      | nil => exact absurd hxy (by simp [cmpLex])
      | cons b u =>
        cases z with
        | nil => exact absurd hyz (by simp [cmpLex])
        | cons cz tz =>
          have hxy' : (c a b).then (cmpLex c t u) = .lt := hxy
          have hyz' : (c b cz).then (cmpLex c u tz) = .lt := hyz
          show (c a cz).then (cmpLex c t tz) = .lt
          rw [then_lt_iff] at hxy' hyz' ⊢
          rcases hxy' with h1 | ⟨h1, h2⟩
          · rcases hyz' with h3 | ⟨h3, h4⟩
            · exact Or.inl (h.lt_trans a b cz h1 h3)
            · left
              rw [← h.eq_right h3 a]
              exact h1
          · rcases hyz' with h3 | ⟨h3, h4⟩
            · left
              rw [h.eq_left a b cz h1]
              exact h3
            · right
              exact ⟨by rw [h.eq_left a b cz h1, h3], ih u tz h2 h4⟩
  · intro x y z he
    induction x generalizing y z with
    | nil =>
      cases y with
      | nil => rfl
      | cons b u => exact absurd he (by simp [cmpLex])
    | cons a t ih =>
      cases y with
      | nil => exact absurd he (by simp [cmpLex])
      | cons b u =>
        have he' : (c a b).then (cmpLex c t u) = .eq := he
        rw [then_eq_iff] at he'
        cases z with
        | nil => rfl
        | cons cz tz =>
          show (c a cz).then (cmpLex c t tz) = (c b cz).then (cmpLex c u tz)
          rw [h.eq_left a b cz he'.1, ih u tz he'.2]

theorem lawful_cmpOption {α : Type} {c : α → α → Ordering}
    (h : LawfulCmp c) : LawfulCmp (cmpOption c) := by
  constructor
  · intro x
    cases x with
    | none => rfl
    | some a => exact h.refl a
  · intro x y
    cases x <;> cases y <;> first | rfl | exact h.swapEq _ _
  · intro x y z hxy hyz
    cases x with
    | none =>
      cases z with
      | none =>
        cases y with
        | none => exact nomatch hxy
        | some b => exact nomatch hyz
      | some cz => rfl
    | some a =>
      cases y with
      | none => exact nomatch hxy
      | some b =>
        cases z with
        | none => exact nomatch hyz
        | some cz => exact h.lt_trans a b cz hxy hyz
  · intro x y z he
    cases x with
    | none =>
      cases y with
      | none => rfl
      | some b => exact nomatch he
    | some a =>
      cases y with
      | none => exact nomatch he
      | some b =>
        cases z with
        | none => rfl
        | some cz => exact h.eq_left a b cz he

/-! ### `natural_sort` computes the token-key comparison -/

theorem isDigit_iff (c : Char) :
    c.isDigit = true ↔ 48 ≤ c.toNat ∧ c.toNat ≤ 57 := by
  simp [Char.isDigit, Char.le_def, UInt32.le_def, Char.toNat, BitVec.le_def,
    UInt32.toNat, UInt32.toBitVec]

theorem cmpLex_cons_cons {α : Type} (c : α → α → Ordering) (x y : α)
    (xs ys : List α) :
    cmpLex c (x :: xs) (y :: ys) = (c x y).then (cmpLex c xs ys) := rfl

theorem natKeyAux_some (v l : Nat) (s : List Char) :
    natKeyAux (some (v, l)) s =
      (48, parseNumberAux v l s) :: natKeyAux none (s.dropWhile Char.isDigit) := by
  induction s generalizing v l with
  | nil => rfl
  | cons c t ih =>
    by_cases hc : c.isDigit
    · simp only [natKeyAux, parseNumberAux, hc, if_true, List.dropWhile_cons]
      exact ih _ _
    · simp [natKeyAux, parseNumberAux, hc, List.dropWhile_cons]

theorem natKey_cons_digit {c : Char} (hc : c.isDigit) (s : List Char) :
    natKey (c :: s) =
      (48, parse_number (c :: s)) :: natKey (s.dropWhile Char.isDigit) := by
  have hd : (0 * 10 + (c.toNat - 48)) % 2 ^ 64 = c.toNat - 48 := by
    have := (isDigit_iff c).mp hc
    rw [Nat.mod_eq_of_lt]
    · omega
    · omega
  show natKeyAux none (c :: s) = _
  simp only [natKeyAux, hc, if_true]
  rw [natKeyAux_some]
  show _ = (48, parseNumberAux 0 0 (c :: s)) :: _
  simp only [parseNumberAux, hc, if_true, hd]
  rfl

theorem natKey_cons_nondigit {c : Char} (hc : ¬ c.isDigit = true)
    (s : List Char) :
    natKey (c :: s) = (c.toNat, 0, 0) :: natKey s := by
  show natKeyAux none (c :: s) = _
  simp only [natKeyAux, hc, if_false]
  rfl

theorem cmpChar_digit_nondigit {c d : Char} (hc : c.isDigit = true)
    (hd : ¬ d.isDigit = true) : cmpChar c d = cmpNat 48 d.toNat := by
  have h1 := (isDigit_iff c).mp hc
  have h2 : d.toNat < 48 ∨ 57 < d.toNat := by
    rcases Nat.lt_or_ge d.toNat 48 with h | h
    · exact Or.inl h
    · right
      by_contra h3
      exact hd ((isDigit_iff d).mpr ⟨h, by omega⟩)
  unfold cmpChar cmpNat
  rcases h2 with h2 | h2
  · rw [if_neg (by omega), if_neg (by omega), if_neg (by omega),
      if_neg (by omega)]
  · rw [if_pos (by omega), if_pos (by omega)]

theorem cmpChar_nondigit_digit {c d : Char} (hc : ¬ c.isDigit = true)
    (hd : d.isDigit = true) : cmpChar c d = cmpNat c.toNat 48 := by
  have h1 := (isDigit_iff d).mp hd
  have h2 : c.toNat < 48 ∨ 57 < c.toNat := by
    rcases Nat.lt_or_ge c.toNat 48 with h | h
    · exact Or.inl h
    · right
      by_contra h3
      exact hc ((isDigit_iff c).mpr ⟨h, by omega⟩)
  unfold cmpChar cmpNat
  rcases h2 with h2 | h2
  · rw [if_pos (by omega), if_pos (by omega)]
  · rw [if_neg (by omega), if_neg (by omega), if_neg (by omega),
      if_neg (by omega)]

theorem natural_sort_eq_key (a b : List Char) :
    natural_sort a b = cmpLex cmpTriple (natKey a) (natKey b) := by
  have main : ∀ (n : Nat) (a b : List Char), a.length ≤ n →
      natural_sort a b = cmpLex cmpTriple (natKey a) (natKey b) := by
    intro n
    induction n with
    | zero =>
      intro a b ha
      have hae : a = [] := List.eq_nil_of_length_eq_zero (Nat.le_zero.mp ha)
      subst hae
      cases b with
      | nil => rw [natural_sort]; rfl
      | cons bc bs =>
        rw [natural_sort]
        by_cases hbc : bc.isDigit
        · rw [natKey_cons_digit hbc]
          rfl
        · rw [natKey_cons_nondigit hbc]
          rfl
    | succ n ihn =>
      intro a b ha
      cases a with
      | nil =>
        cases b with
        | nil => rw [natural_sort]; rfl
        | cons bc bs =>
          rw [natural_sort]
          by_cases hbc : bc.isDigit
          · rw [natKey_cons_digit hbc]
            rfl
          · rw [natKey_cons_nondigit hbc]
            rfl
      | cons ac as =>
        cases b with
        | nil =>
          rw [natural_sort]
          by_cases hac : ac.isDigit
          · rw [natKey_cons_digit hac]
            rfl
          · rw [natKey_cons_nondigit hac]
            rfl
        | cons bc bs =>
          rw [natural_sort]
          by_cases hd : ac.isDigit && bc.isDigit
          · rw [if_pos hd]
            have hab : ac.isDigit = true ∧ bc.isDigit = true := by
              simpa using hd
            obtain ⟨hac, hbc⟩ := hab
            rw [natKey_cons_digit hac, natKey_cons_digit hbc,
              cmpLex_cons_cons]
            have hT : cmpTriple (48, parse_number (ac :: as))
                (48, parse_number (bc :: bs)) =
                (cmpNat (parse_number (ac :: as)).1 (parse_number (bc :: bs)).1).then
                  (cmpNat (parse_number (ac :: as)).2 (parse_number (bc :: bs)).2) := by
              show (cmpNat 48 48).then _ = _
              rw [cmpNat_self]
              rfl
            rw [hT]
            have hlen : (as.dropWhile Char.isDigit).length ≤ n := by
              have := dropWhile_length_le Char.isDigit as
              simp only [List.length_cons] at ha
              omega
            cases hv : cmpNat (parse_number (ac :: as)).1 (parse_number (bc :: bs)).1 with
            | eq =>
              cases hl : cmpNat (parse_number (ac :: as)).2 (parse_number (bc :: bs)).2 with
              | eq => exact ihn _ _ hlen
              | lt => rfl
              | gt => rfl
            | lt => rfl
            | gt => rfl
          · rw [if_neg hd]
            by_cases hac : ac.isDigit <;> by_cases hbc : bc.isDigit
            · exact absurd (by rw [hac, hbc]; rfl : (ac.isDigit && bc.isDigit) = true) hd
            · rw [natKey_cons_digit hac, natKey_cons_nondigit hbc,
                cmpLex_cons_cons, cmpChar_digit_nondigit hac hbc]
              have h2 : bc.toNat < 48 ∨ 57 < bc.toNat := by
                rcases Nat.lt_or_ge bc.toNat 48 with h | h
                · exact Or.inl h
                · right
                  by_contra h3
                  exact hbc ((isDigit_iff bc).mpr ⟨h, by omega⟩)
              have hT : cmpTriple (48, parse_number (ac :: as))
                  (bc.toNat, 0, 0) =
                  (cmpNat 48 bc.toNat).then
                    ((cmpNat (parse_number (ac :: as)).1 0).then
                      (cmpNat (parse_number (ac :: as)).2 0)) := rfl
              rw [hT]
              cases ho : cmpNat 48 bc.toNat with
              | eq =>
                rw [cmpNat_eq_iff] at ho
                omega
              | lt => rfl
              | gt => rfl
            · rw [natKey_cons_nondigit hac, natKey_cons_digit hbc,
                cmpLex_cons_cons, cmpChar_nondigit_digit hac hbc]
              have h2 : ac.toNat < 48 ∨ 57 < ac.toNat := by
                rcases Nat.lt_or_ge ac.toNat 48 with h | h
                · exact Or.inl h
                · right
                  by_contra h3
                  exact hac ((isDigit_iff ac).mpr ⟨h, by omega⟩)
              have hT : cmpTriple (ac.toNat, 0, 0)
                  (48, parse_number (bc :: bs)) =
                  (cmpNat ac.toNat 48).then
                    ((cmpNat 0 (parse_number (bc :: bs)).1).then
                      (cmpNat 0 (parse_number (bc :: bs)).2)) := rfl
              rw [hT]
              cases ho : cmpNat ac.toNat 48 with
              | eq =>
                rw [cmpNat_eq_iff] at ho
                omega
              | lt => rfl
              | gt => rfl
            · rw [natKey_cons_nondigit hac, natKey_cons_nondigit hbc,
                cmpLex_cons_cons]
              have hT : cmpTriple (ac.toNat, 0, 0) (bc.toNat, 0, 0) =
                  (cmpNat ac.toNat bc.toNat).then .eq := rfl
              rw [hT]
              have hlen : as.length ≤ n := by
                simp only [List.length_cons] at ha
                omega
              cases ho : cmpChar ac bc with
              | eq =>
                have ho' : cmpNat ac.toNat bc.toNat = .eq := ho
                rw [ho']
                exact ihn _ _ hlen
              | lt =>
                have ho' : cmpNat ac.toNat bc.toNat = .lt := ho
                rw [ho']
                rfl
              | gt =>
                have ho' : cmpNat ac.toNat bc.toNat = .gt := ho
                rw [ho']
                rfl
  exact main a.length a b (Nat.le_refl _)

theorem lawful_natural_sort : LawfulCmp natural_sort :=
  ((lawful_cmpLex lawful_cmpTriple).pull natKey).congrFun natural_sort_eq_key

theorem lawful_cmpCaseInsensitive : LawfulCmp cmpCaseInsensitive :=
  ((lawful_cmpLex lawful_cmpNat).pull (List.map asciiLower)).congrFun
    (fun _ _ => rfl)

theorem lawful_cmpNumericPrefix : LawfulCmp cmpNumericPrefix :=
  (((lawful_cmpOption lawful_cmpNat).pull
      (fun x : Option Nat × List Char => x.1)).comb
    (lawful_cmpCaseInsensitive.pull
      (fun x : Option Nat × List Char => x.2))).congrFun (fun _ _ => rfl)

theorem lawful_stratNameCmp (strat : SortStrategy) :
    LawfulCmp (stratNameCmp strat) := by
  cases strat with
  | Lexicographical =>
    exact ((lawful_cmpOption lawful_cmpNumericPrefix).pull
      (Option.map fromNumericPrefixedStr)).congrFun (fun _ _ => rfl)
  | Alphabetical =>
    exact (lawful_cmpOption lawful_natural_sort).congrFun (fun _ _ => rfl)

theorem componentCmp_eq_key (strat : SortStrategy) (x y : List Char × Bool) :
    componentCmp strat x.2 y.2 x.1 y.1 =
      (cmpBool x.2 y.2).then
        ((stratNameCmp strat (if x.2 then compFileStem x.1 else compFileName x.1)
            (if y.2 then compFileStem y.1 else compFileName y.1)).then
          (cmpLex cmpChar (if x.2 then (compExtension x.1).getD [] else [])
            (if y.2 then (compExtension y.1).getD [] else []))) := by
  obtain ⟨ca, af⟩ := x
  obtain ⟨cb, bf⟩ := y
  dsimp only
  cases af <;> cases bf <;> rfl

theorem lawful_componentCmp (strat : SortStrategy) :
    LawfulCmp (fun x y : List Char × Bool =>
      componentCmp strat x.2 y.2 x.1 y.1) := by
  refine LawfulCmp.congrFun ?_ (componentCmp_eq_key strat)
  exact (lawful_cmpBool.pull (fun x : List Char × Bool => x.2)).comb
    (((lawful_stratNameCmp strat).pull
        (fun x : List Char × Bool =>
          if x.2 then compFileStem x.1 else compFileName x.1)).comb
      ((lawful_cmpLex lawful_cmpChar).pull
        (fun x : List Char × Bool =>
          if x.2 then (compExtension x.1).getD [] else [])))

theorem annotate_cons (f : Bool) (c : List Char) (rest : List (List Char)) :
    annotate f (c :: rest) = (c, rest.isEmpty && f) :: annotate f rest := by
  cases rest <;> rfl

theorem cmpComponents_eq_annotate (strat : SortStrategy) (af bf : Bool) :
    ∀ (ca cb : List (List Char)),
    cmpComponents strat af bf ca cb =
      cmpLex (fun x y : List Char × Bool => componentCmp strat x.2 y.2 x.1 y.1)
        (annotate af ca) (annotate bf cb) := by
  intro ca
  induction ca with
  | nil =>
    intro cb
    cases cb with
    | nil => rfl
    | cons cb1 cbs => cases cbs <;> rfl
  | cons ca1 cas ih =>
    intro cb
    cases cb with
    | nil => cases cas <;> rfl
    | cons cb1 cbs =>
      rw [annotate_cons, annotate_cons, cmpLex_cons_cons]
      show (match componentCmp strat (cas.isEmpty && af) (cbs.isEmpty && bf)
          ca1 cb1 with
        | .eq => cmpComponents strat af bf cas cbs
        | o => o) = _
      dsimp only
      cases hC : componentCmp strat (cas.isEmpty && af) (cbs.isEmpty && bf)
          ca1 cb1 with
      | eq => exact ih cbs
      | lt => rfl
      | gt => rfl

theorem lawful_compare_paths (strat : SortStrategy) :
    LawfulCmp (fun a b : List Char × Bool =>
      compare_paths_with_strategy a b strat) := by
  refine LawfulCmp.congrFun
    ((lawful_cmpLex (lawful_componentCmp strat)).pull
      (fun a : List Char × Bool => annotate a.2 (pathComponents a.1))) ?_
  intro a b
  exact cmpComponents_eq_annotate strat a.2 b.2 (pathComponents a.1)
    (pathComponents b.1)

/-- Claim C5: for each fixed strategy, `compare_paths_with_strategy` is
a total, deterministic strict weak ordering on `(path, is_file)` pairs:
self-comparison yields `Equal`, `Less` holds exactly when the swapped
comparison yields `Greater`, `Less` is transitive, and so is `Equal`
(incomparability). -/
theorem c5_compare_strict_weak_order (strat : SortStrategy)
    (a b c : List Char × Bool) :
    compare_paths_with_strategy a a strat = .eq ∧
    (compare_paths_with_strategy a b strat = .lt ↔
      compare_paths_with_strategy b a strat = .gt) ∧
    (compare_paths_with_strategy a b strat = .lt →
      compare_paths_with_strategy b c strat = .lt →
      compare_paths_with_strategy a c strat = .lt) ∧
    (compare_paths_with_strategy a b strat = .eq →
      compare_paths_with_strategy b c strat = .eq →
      compare_paths_with_strategy a c strat = .eq) := by
  have h := lawful_compare_paths strat
  exact ⟨h.refl a, h.lt_iff_gt a b, h.lt_trans a b c,
    fun h1 h2 => h.eq_trans h1 h2⟩

/-- Claim C5, witness: a concrete `Less` chain through the transitivity
part of the theorem. -/
theorem c5_compare_strict_weak_order_witness :
    compare_paths_with_strategy ("a".data, true) ("b".data, true)
      .Lexicographical = .lt ∧
    compare_paths_with_strategy ("b".data, true) ("c".data, true)
      .Lexicographical = .lt ∧
    compare_paths_with_strategy ("a".data, true) ("c".data, true)
      .Lexicographical = .lt :=
  ⟨by decide, by decide,
    (c5_compare_strict_weak_order .Lexicographical ("a".data, true)
      ("b".data, true) ("c".data, true)).2.2.1 (by decide) (by decide)⟩

/-- Claim C8, counterexample: the digit run `18446744073709551616`
(equal to `2 ^ 64`) wraps to `0` in the `u64` accumulator, so the code
sorts it before `2`, while comparison by exact numeric value (the
claim) puts it after. -/
theorem c8_counterexample_u64_wrap :
    natural_sort "18446744073709551616".data "2".data = .lt ∧
    naturalSortSpec "18446744073709551616".data "2".data = .gt := by
  constructor
  · rw [natural_sort_eq_key]
    decide
  · decide

/-- Claim C8 (amended): `natural_sort` compares contiguous ASCII digit
runs as single tokens by their numeric value reduced modulo `2 ^ 64`
(`u64` wrapping arithmetic), then by digit count — so shorter
equal-value runs still sort first, e.g. `1 < 01` — and all other
characters by code point; formally it equals the lexicographic
comparison of the token keys. -/
theorem c8_amended_digit_runs_wrapped :
    (∀ a b : List Char,
      natural_sort a b = cmpLex cmpTriple (natKey a) (natKey b)) ∧
    natural_sort "1".data "01".data = .lt := by
  refine ⟨natural_sort_eq_key, ?_⟩
  rw [natural_sort_eq_key]
  decide

/-! ### `PathMatcher` claims -/

/-- Claim C7: if the raw bytes of the candidate start with or end with
any of the matcher's pattern source strings, `is_match` returns `true`,
regardless of the globs. -/
theorem c7_byte_fast_path (m : PathMatcher) (p src : List Char)
    (hmem : src ∈ m.sources)
    (h : src.isPrefixOf p = true ∨ src.isSuffixOf p = true) :
    m.is_match p = true := by
  unfold PathMatcher.is_match
  have hany : m.sources.any (fun src => src.isPrefixOf p || src.isSuffixOf p)
      = true := by
    rw [List.any_eq_true]
    refine ⟨src, hmem, ?_⟩
    rcases h with h | h <;> simp [h]
  rw [hany]
  rfl

/-- Claim C7, witness: a literal pattern matching by byte prefix only
(the glob set is empty, so no glob matches). -/
theorem c7_byte_fast_path_witness :
    (⟨["pre".data], []⟩ : PathMatcher).is_match "prefix".data = true :=
  c7_byte_fast_path ⟨["pre".data], []⟩ "prefix".data "pre".data
    (by decide) (Or.inl (by decide))

/-- Claim C10: a `PathMatcher` built from an empty pattern list (the
same value as `PathMatcher::default()`: no sources, empty glob set)
matches nothing. -/
theorem c10_empty_matcher_matches_nothing (p : List Char) :
    PathMatcher.new [] = some ⟨[], []⟩ ∧
    (⟨[], []⟩ : PathMatcher).is_match p = false := by
  refine ⟨rfl, ?_⟩
  unfold PathMatcher.is_match PathMatcher.check_with_end_separator
  simp

/-! ### Claim C4: trailing-separator behaviour of directory globs -/

theorem nil_mem_tails (s : List Char) : [] ∈ s.tails := by
  rw [List.mem_tails]
  exact List.nil_suffix

theorem mem_tails_append {v s : List Char} (t : List Char) (h : v ∈ s.tails) :
    v ++ t ∈ (s ++ t).tails := by
  rw [List.mem_tails] at *
  obtain ⟨u, rfl⟩ := h
  exact ⟨u, by rw [List.append_assoc]⟩

theorem mem_suffixesAfterSlash_append {v : List Char} :
    ∀ {s : List Char} (t : List Char), v ∈ suffixesAfterSlash s →
    v ++ t ∈ suffixesAfterSlash (s ++ t) := by
  intro s
  induction s with
  | nil => intro t h; exact absurd h (by simp [suffixesAfterSlash])
  | cons c s ih =>
    intro t h
    simp only [suffixesAfterSlash, List.mem_append, List.cons_append] at h ⊢
    by_cases hc : c = '/'
    · rw [if_pos hc] at h ⊢
      rcases h with h | h
      · left
        simp only [List.mem_singleton] at h ⊢
        rw [h]
        rfl
      · right
        exact ih t h
    · rw [if_neg hc] at h ⊢
      rcases h with h | h
      · exact absurd h (by simp)
      · right
        exact ih t h

theorem nil_mem_suffixesAfterSlash_concat :
    ∀ (s : List Char), [] ∈ suffixesAfterSlash (s ++ ['/'])
  | [] => by simp [suffixesAfterSlash]
  | c :: s => by
    simp only [List.cons_append, suffixesAfterSlash, List.mem_append]
    right
    exact nil_mem_suffixesAfterSlash_concat s

theorem gMatch_append_slash :
    ∀ (ts : List GTok) (s : List Char),
    (ts.getLast? = some GTok.rsuf ∨ ts.getLast? = some GTok.rpre) →
    gMatch ts s = true → gMatch ts (s ++ ['/']) = true := by
  intro ts
  induction ts with
  | nil => intro s hlast _; simp at hlast
  | cons t ts ih =>
    intro s hlast hm
    cases ts with
    | nil =>
      have ht : t = GTok.rsuf ∨ t = GTok.rpre := by
        rcases hlast with hlast | hlast
        · left
          have : some t = some GTok.rsuf := hlast
          injection this
        · right
          have : some t = some GTok.rpre := hlast
          injection this
      rcases ht with rfl | rfl
      · cases s with
        | nil => exact absurd hm (by decide)
        | cons c r =>
          simp only [gMatch, List.cons_append, Bool.and_eq_true] at hm ⊢
          refine ⟨hm.1, ?_⟩
          rw [List.any_eq_true]
          exact ⟨[], nil_mem_tails _, rfl⟩
      · simp only [gMatch, Bool.or_eq_true]
        right
        rw [List.any_eq_true]
        exact ⟨[], nil_mem_suffixesAfterSlash_concat s, rfl⟩
    | cons t2 ts2 =>
      have hlast' : (t2 :: ts2).getLast? = some GTok.rsuf ∨
          (t2 :: ts2).getLast? = some GTok.rpre := by
        rw [← List.getLast?_cons_cons (a := t) (b := t2) (l := ts2)]
        exact hlast
      cases t with
      | lit c =>
        cases s with
        | nil => exact absurd hm (by simp [gMatch])
        | cons d r =>
          simp only [gMatch, List.cons_append, Bool.and_eq_true] at hm ⊢
          exact ⟨hm.1, ih r hlast' hm.2⟩
      | one =>
        cases s with
        | nil => exact absurd hm (by simp [gMatch])
        | cons d r =>
          simp only [gMatch, List.cons_append] at hm ⊢
          exact ih r hlast' hm
      | star =>
        simp only [gMatch, List.any_eq_true] at hm ⊢
        obtain ⟨v, hv, hgm⟩ := hm
        exact ⟨v ++ ['/'], mem_tails_append ['/'] hv, ih v hlast' hgm⟩
      | rpre =>
        simp only [gMatch, Bool.or_eq_true, List.any_eq_true] at hm ⊢
        rcases hm with hm | ⟨v, hv, hgm⟩
        · exact Or.inl (ih s hlast' hm)
        · exact Or.inr ⟨v ++ ['/'], mem_suffixesAfterSlash_append ['/'] hv,
            ih v hlast' hgm⟩
      | rsuf =>
        cases s with
        | nil => exact absurd hm (by simp [gMatch])
        | cons c r =>
          simp only [gMatch, List.cons_append, Bool.and_eq_true,
            List.any_eq_true] at hm ⊢
          obtain ⟨hc, v, hv, hgm⟩ := hm
          exact ⟨hc, v ++ ['/'], mem_tails_append ['/'] hv, ih v hlast' hgm⟩
      | rmid =>
        cases s with
        | nil => exact absurd hm (by simp [gMatch])
        | cons c r =>
          simp only [gMatch, List.cons_append, Bool.and_eq_true,
            Bool.or_eq_true, List.any_eq_true] at hm ⊢
          obtain ⟨hc, hm⟩ := hm
          refine ⟨hc, ?_⟩
          rcases hm with hm | ⟨v, hv, hgm⟩
          · exact Or.inl (ih r hlast' hm)
          · exact Or.inr ⟨v ++ ['/'], mem_suffixesAfterSlash_append ['/'] hv,
              ih v hlast' hgm⟩

theorem suffix_peel {c : Char} {r : List Char}
    (h : ['/', '*', '*'] <:+ c :: r) :
    (c = '/' ∧ r = ['*', '*']) ∨ ['/', '*', '*'] <:+ r := by
  obtain ⟨u, hu⟩ := h
  cases u with
  | nil =>
    left
    injection hu with h1 h2
    exact ⟨h1.symm, h2.symm⟩
  | cons a u' =>
    right
    injection hu with h1 h2
    exact ⟨u', h2⟩

theorem pushRec_head {acc acc2 : List GTok} {tok : GTok}
    (h : pushRec acc tok = some acc2) :
    acc2.head? = some GTok.rpre ∨ acc2.head? = some GTok.rsuf ∨
      acc2.head? = some tok := by
  unfold pushRec at h
  cases acc with
  | nil => exact absurd h (by simp)
  | cons t rest =>
    cases t with
    | rpre =>
      injection h with h
      subst h
      exact Or.inl rfl
    | rsuf =>
      injection h with h
      subst h
      exact Or.inr (Or.inl rfl)
    | lit c =>
      injection h with h
      subst h
      exact Or.inr (Or.inr rfl)
    | one =>
      injection h with h
      subst h
      exact Or.inr (Or.inr rfl)
    | star =>
      injection h with h
      subst h
      exact Or.inr (Or.inr rfl)
    | rmid =>
      injection h with h
      subst h
      exact Or.inr (Or.inr rfl)

theorem pushRec_ne_nil {acc acc2 : List GTok} {tok : GTok}
    (h : pushRec acc tok = some acc2) : acc2 ≠ [] := by
  intro hnil
  rcases pushRec_head h with h2 | h2 | h2 <;>
    (rw [hnil] at h2; exact absurd h2 (by simp))

theorem parseGlob_suffix_recursive :
    ∀ (n : Nat) (src : List Char) (acc : List GTok) (prev : Option Char)
      (ts : List GTok), src.length ≤ n →
    (['/', '*', '*'] <:+ src ∨
      (src = ['*', '*'] ∧ prev = some '/' ∧ acc ≠ [])) →
    parseGlobChars acc prev src = some ts →
    (ts.getLast? = some GTok.rsuf ∨ ts.getLast? = some GTok.rpre) := by
  intro n
  induction n with
  | zero =>
    intro src acc prev ts hle hinv h
    have hsrc : src = [] := List.eq_nil_of_length_eq_zero (Nat.le_zero.mp hle)
    subst hsrc
    rcases hinv with hinv | ⟨hinv, -, -⟩
    · have := hinv.length_le
      simp at this
    · exact absurd hinv (by simp)
  | succ n ih =>
    intro src acc prev ts hle hinv h
    rw [parseGlobChars.eq_def] at h
    split at h
    · -- src = []
      rcases hinv with hinv | ⟨hinv, -, -⟩
      · have := hinv.length_le
        simp at this
      · exact absurd hinv (by simp)
    · -- src = ['*', '*']
      rcases hinv with hinv | ⟨-, hprev, hacc⟩
      · have := hinv.length_le
        simp at this
      · rw [if_neg (by simp only [List.isEmpty_iff]; exact hacc),
          if_neg (by simp [hprev])] at h
        cases hp : pushRec acc GTok.rsuf with
        | none => rw [hp] at h; exact absurd h (by simp)
        | some acc2 =>
          rw [hp] at h
          have h' : some acc2.reverse = some ts := h
          injection h' with h'
          subst h'
          rw [List.getLast?_reverse]
          rcases pushRec_head hp with h2 | h2 | h2
          · exact Or.inr h2
          · exact Or.inl h2
          · exact Or.inl h2
    · -- src = '*' :: '*' :: '/' :: rest3
      rename_i rest3
      rcases hinv with hinv | ⟨heq, -, -⟩
      swap
      · exact absurd heq (by simp)
      rcases suffix_peel hinv with ⟨hc, -⟩ | hinv2
      · exact absurd hc (by decide)
      rcases suffix_peel hinv2 with ⟨hc, -⟩ | hinv3
      · exact absurd hc (by decide)
      have hd : rest3 = ['*', '*'] ∨ ['/', '*', '*'] <:+ rest3 := by
        rcases suffix_peel hinv3 with ⟨-, hr⟩ | h4
        · exact Or.inl hr
        · exact Or.inr h4
      have hlen3 : rest3.length ≤ n := by
        simp only [List.length_cons] at hle
        omega
      by_cases hacc : acc.isEmpty
      · rw [if_pos hacc] at h
        refine ih rest3 _ _ ts hlen3 ?_ h
        rcases hd with hd | hd
        · exact Or.inr ⟨hd, rfl, by simp⟩
        · exact Or.inl hd
      · rw [if_neg hacc] at h
        by_cases hprev : prev ≠ some '/'
        · rw [if_pos hprev] at h
          refine ih ('/' :: rest3) _ _ ts ?_ ?_ h
          · simp only [List.length_cons] at hle ⊢
            omega
          · left
            rcases hd with hd | hd
            · rw [hd]
            · exact hd.trans (List.suffix_cons '/' rest3)
        · rw [if_neg hprev] at h
          cases hp : pushRec acc GTok.rmid with
          | none => rw [hp] at h; exact absurd h (by simp)
          | some acc2 =>
            rw [hp] at h
            refine ih rest3 acc2 _ ts hlen3 ?_ h
            rcases hd with hd | hd
            · exact Or.inr ⟨hd, rfl, pushRec_ne_nil hp⟩
            · exact Or.inl hd
    · -- src = '*' :: '*' :: c2 :: rest2 with c2 ≠ '/'
      rename_i c2 rest2 hdisc
      rcases hinv with hinv | ⟨heq, -, -⟩
      swap
      · exact absurd heq (by simp)
      rcases suffix_peel hinv with ⟨hc, -⟩ | hinv2
      · exact absurd hc (by decide)
      rcases suffix_peel hinv2 with ⟨hc, -⟩ | hinv3
      · exact absurd hc (by decide)
      refine ih (c2 :: rest2) _ _ ts ?_ (Or.inl hinv3) h
      simp only [List.length_cons] at hle ⊢
      omega
    · -- src = '*' :: rest, rest not of the previous shapes
      rename_i rest hne1 hne2 hne3
      rcases hinv with hinv | ⟨heq, -, -⟩
      swap
      · injection heq with h1 h2
        exact absurd (hne1 h2) id
      rcases suffix_peel hinv with ⟨hc, -⟩ | hinv2
      · exact absurd hc (by decide)
      refine ih rest _ _ ts ?_ (Or.inl hinv2) h
      simp only [List.length_cons] at hle
      omega
    · -- src = c :: rest with c ≠ '*'
      rename_i c rest hne1 hne2 hne3 hne4
      split at h
      · exact absurd h (by simp)
      by_cases hq : c = '?'
      · rw [if_pos hq] at h
        rcases hinv with hinv | ⟨heq, -, -⟩
        swap
        · injection heq with h1 h2
          exact absurd (hne4 h1) id
        rcases suffix_peel hinv with ⟨hc, -⟩ | hinv2
        · rw [hq] at hc
          exact absurd hc (by decide)
        refine ih rest _ _ ts ?_ (Or.inl hinv2) h
        simp only [List.length_cons] at hle
        omega
      · rw [if_neg hq] at h
        rcases hinv with hinv | ⟨heq, -, -⟩
        swap
        · injection heq with h1 h2
          exact absurd (hne4 h1) id
        have hlen : rest.length ≤ n := by
          simp only [List.length_cons] at hle
          omega
        rcases suffix_peel hinv with ⟨hc, hr⟩ | hinv2
        · subst hc
          refine ih rest _ _ ts hlen ?_ h
          exact Or.inr ⟨hr, rfl, by simp⟩
        · exact ih rest _ _ ts hlen (Or.inl hinv2) h

theorem parseGlob_suffix_good {src : List Char} {ts : List GTok}
    (hdir : ['/', '*', '*'] <:+ src)
    (h : parseGlobChars [] none src = some ts) :
    ts.getLast? = some GTok.rsuf ∨ ts.getLast? = some GTok.rpre :=
  parseGlob_suffix_recursive src.length src [] none ts (Nat.le_refl _)
    (Or.inl hdir) h

theorem getLast?_of_dirSuffix {src : List Char}
    (h : ['/', '*', '*'] <:+ src) : src.getLast? = some '*' := by
  obtain ⟨u, rfl⟩ := h
  rw [List.getLast?_append]
  rfl

theorem isSuffixOf_concat_slash_eq_false {src p : List Char}
    (hstar : src.getLast? = some '*') :
    src.isSuffixOf (p ++ ['/']) = false := by
  rw [Bool.eq_false_iff]
  intro hb
  obtain ⟨u, hu⟩ := List.isSuffixOf_iff_suffix.mp hb
  have hl : (u ++ src).getLast? = some '/' := by
    rw [hu, List.getLast?_concat]
  rw [List.getLast?_append, hstar] at hl
  simp [Option.or] at hl

theorem isPrefixOf_concat_slash {src p : List Char}
    (hlast : src.getLast? = some '*') :
    src.isPrefixOf (p ++ ['/']) = src.isPrefixOf p := by
  by_cases hp : src <+: p
  · rw [List.isPrefixOf_iff_prefix.mpr hp,
      List.isPrefixOf_iff_prefix.mpr (hp.trans (List.prefix_append p ['/']))]
  · have hp2 : ¬ src <+: p ++ ['/'] := by
      intro h2
      apply hp
      have hlen : src.length ≤ p.length := by
        have hle := h2.length_le
        simp only [List.length_append, List.length_cons, List.length_nil] at hle
        rcases Nat.lt_or_ge src.length (p.length + 1) with h3 | h3
        · omega
        · exfalso
          have hEq : src = p ++ ['/'] :=
            h2.eq_of_length (by
              simp only [List.length_append, List.length_cons, List.length_nil]
              omega)
          rw [hEq, List.getLast?_concat] at hlast
          exact absurd hlast (by simp)
      have htake := List.prefix_iff_eq_take.mp h2
      rw [List.take_append_of_le_length hlen] at htake
      rw [List.prefix_iff_eq_take]
      exact htake
    cases hb1 : src.isPrefixOf (p ++ ['/'])
    · cases hb2 : src.isPrefixOf p
      · rfl
      · exact absurd (List.isPrefixOf_iff_prefix.mp hb2) hp
    · exact absurd (List.isPrefixOf_iff_prefix.mp hb1) hp2

theorem anyCongr {α : Type} {f g : α → Bool} :
    ∀ {l : List α}, (∀ x ∈ l, f x = g x) → l.any f = l.any g := by
  intro l
  induction l with
  | nil => intro _; rfl
  | cons a t ih =>
    intro h
    simp only [List.any_cons]
    rw [h a (List.mem_cons_self a t),
      ih (fun x hx => h x (List.mem_cons_of_mem a hx))]

theorem compileGlobs_mem :
    ∀ {ps : List (List Char)} {gs : List (List GTok)},
    compileGlobs ps = some gs → ∀ g ∈ gs, ∃ src ∈ ps,
      parseGlobChars [] none src = some g := by
  intro ps
  induction ps with
  | nil =>
    intro gs h g hg
    have h' : some ([] : List (List GTok)) = some gs := h
    injection h' with h'
    subst h'
    exact absurd hg (by simp)
  | cons pat ps ih =>
    intro gs h g hg
    have h0 : (match parseGlobChars [] none pat, compileGlobs ps with
      | some g, some gs => some (g :: gs)
      | _, _ => none) = some gs := h
    cases hp : parseGlobChars [] none pat with
    | none =>
      rw [hp] at h0
      exact absurd h0 (by simp)
    | some g1 =>
      cases hc : compileGlobs ps with
      | none =>
        rw [hp, hc] at h0
        exact absurd h0 (by simp)
      | some gs1 =>
        rw [hp, hc] at h0
        have h1 : some (g1 :: gs1) = some gs := h0
        injection h1 with h1
        subst h1
        rcases List.mem_cons.mp hg with rfl | hg2
        · exact ⟨pat, List.mem_cons_self _ _, hp⟩
        · obtain ⟨src, hsrc, hps⟩ := ih hc g hg2
          exact ⟨src, List.mem_cons_of_mem _ hsrc, hps⟩

/-- Claim C4, counterexample: with the directory-style pattern `a/**`,
the candidate `xa/**` matches (its bytes end with the pattern source)
but `xa/**/` does not: no byte check holds, the glob `a/**` does not
match, and the trailing-separator fallback is skipped for candidates
already ending in the separator. -/
theorem c4_counterexample_trailing_separator :
    PathMatcher.new ["a/**".data] =
      some ⟨["a/**".data], [[GTok.lit 'a', GTok.rsuf]]⟩ ∧
    (⟨["a/**".data], [[GTok.lit 'a', GTok.rsuf]]⟩ : PathMatcher).is_match
      "xa/**".data = true ∧
    (⟨["a/**".data], [[GTok.lit 'a', GTok.rsuf]]⟩ : PathMatcher).is_match
      ("xa/**".data ++ ['/']) = false := by
  decide

/-- Claim C4 (amended): for a matcher compiled from patterns that all
end in `/**` (within the modelled glob subset), `is_match` answers the
same on `p` and on `p` with a separator appended, provided `p` does not
already end with the separator and no pattern source is a byte-suffix
of `p` (the byte fast path breaks the equivalence there, as the
counterexample shows). -/
theorem c4_amended_trailing_separator
    (patterns : List (List Char)) (m : PathMatcher)
    (hm : PathMatcher.new patterns = some m)
    (hdir : ∀ src ∈ patterns, ['/', '*', '*'] <:+ src)
    (p : List Char)
    (hnosep : ¬ p.getLast? = some '/')
    (hnosuf : ∀ src ∈ patterns, src.isSuffixOf p = false) :
    m.is_match p = m.is_match (p ++ ['/']) := by
  obtain ⟨gs, hgs, hmeq⟩ : ∃ gs, compileGlobs patterns = some gs ∧
      m = ⟨patterns, gs⟩ := by
    unfold PathMatcher.new at hm
    cases hc : compileGlobs patterns with
    | none => rw [hc] at hm; exact absurd hm (by simp)
    | some gs =>
      rw [hc] at hm
      have h1 : some (⟨patterns, gs⟩ : PathMatcher) = some m := hm
      injection h1 with h1
      exact ⟨gs, rfl, h1.symm⟩
  subst hmeq
  unfold PathMatcher.is_match PathMatcher.check_with_end_separator
  dsimp only
  have hbyte : patterns.any (fun src =>
      src.isPrefixOf (p ++ ['/']) || src.isSuffixOf (p ++ ['/'])) =
      patterns.any (fun src => src.isPrefixOf p || src.isSuffixOf p) := by
    apply anyCongr
    intro src hs
    have hstar := getLast?_of_dirSuffix (hdir src hs)
    rw [isPrefixOf_concat_slash hstar, isSuffixOf_concat_slash_eq_false hstar,
      hnosuf src hs]
  have hsep2 : (p ++ ['/']).getLast? = some '/' := List.getLast?_concat p
  rw [if_neg hnosep, if_pos hsep2, hbyte]
  have hmono : gs.any (fun g => gMatch g p) = true →
      gs.any (fun g => gMatch g (p ++ ['/'])) = true := by
    intro hG
    rw [List.any_eq_true] at hG ⊢
    obtain ⟨g, hgmem, hgm⟩ := hG
    obtain ⟨src, hsrc, hps⟩ := compileGlobs_mem hgs g hgmem
    exact ⟨g, hgmem,
      gMatch_append_slash g p (parseGlob_suffix_good (hdir src hsrc) hps) hgm⟩
  cases hGp : gs.any (fun g => gMatch g p)
  · simp
  · rw [hmono hGp]
    simp

/-- Claim C4 amended, witness: the matcher for `a/**` and the candidate
`b`, matched neither with nor without a trailing separator. -/
theorem c4_amended_trailing_separator_witness :
    (⟨["a/**".data], [[GTok.lit 'a', GTok.rsuf]]⟩ : PathMatcher).is_match
      "b".data =
    (⟨["a/**".data], [[GTok.lit 'a', GTok.rsuf]]⟩ : PathMatcher).is_match
      ("b".data ++ ['/']) :=
  c4_amended_trailing_separator ["a/**".data]
    ⟨["a/**".data], [[GTok.lit 'a', GTok.rsuf]]⟩ (by decide) (by decide)
    "b".data (by decide) (by decide)
